import Mathlib

/-! Verification development for the autograd and linear-regression notebooks.

The notebooks call into an external array/autodiff library.  The
specification reconstructs that engine at design level; we model it here
over flat tensors (lists of rationals), following the specification's
component design (Tensor arena, Gradient Slot, Operation Record, Trace,
Recording Controller, Backward Engine), and check each claimed property.
Where the notebooks' recorded cell outputs pin down engine behaviour
(the printed gradient values), the model follows those outputs.
-/

/-- Elementwise addition of two flat tensors. -/
def addL (a b : List ℚ) : List ℚ := List.zipWith (· + ·) a b

/-- Elementwise multiplication of two flat tensors. -/
def mulL (a b : List ℚ) : List ℚ := List.zipWith (· * ·) a b

/-- Elementwise subtraction of two flat tensors. -/
def subL (a b : List ℚ) : List ℚ := List.zipWith (· - ·) a b

/-- Scaling of a flat tensor by a scalar constant. -/
def scaleL (c : ℚ) (a : List ℚ) : List ℚ := a.map (fun t => c * t)

/-- Pointwise update of a function at one index. -/
def upd {α : Type} (f : Nat → α) (k : Nat) (v : α) : Nat → α :=
  fun i => if i = k then v else f i

/-- Operation kinds recorded on the Trace: the primitive operations the
notebooks use inside recording scopes (elementwise add, elementwise
multiply, scaling by a constant, reduction-sum). -/
inductive OpKind : Type where
  | add : OpKind
  | mulT : OpKind
  | smul : ℚ → OpKind
  | sumAll : OpKind
deriving DecidableEq

/-- Modelled from the spec: an Operation Record — one node of the Trace,
capturing the operation kind, the input tensor ids, and the output tensor
id (arena indices, as the spec's design notes prescribe). -/
structure OpRec : Type where
  kind : OpKind
  inputs : List Nat
  out : Nat
deriving DecidableEq

/-- Modelled from the spec: the autodiff engine state missing from the
repository (the notebooks only call it).  A tensor arena `vals` (tensor
id = index of creation), per-id optional Gradient Slots, the append-only
Trace of Operation Records, and the process-wide recording flag. -/
structure AD : Type where
  vals : List (List ℚ)
  slots : Nat → Option (List ℚ)
  trace : List OpRec
  recording : Bool

/-- The initial engine state: no tensors, no slots, empty Trace, Idle. -/
def AD.empty : AD := ⟨[], fun _ => none, [], false⟩

/-- Allocate a fresh tensor holding the given values (literal or random
construction: no Operation Record is created). -/
def newTensor (s : AD) (v : List ℚ) : AD × Nat :=
  ({ s with vals := s.vals ++ [v] }, s.vals.length)

/-- Modelled from the spec: attach_grad of the external engine — lazily
allocates a zero-initialized Gradient Slot of the tensor's shape;
idempotent if already attached. -/
def attach_grad (s : AD) (t : Nat) : AD :=
  match s.slots t with
  | some _ => s
  | none =>
      { s with slots := upd s.slots t (some (List.replicate (s.vals.getD t []).length 0)) }

/-- Modelled from the spec: entering the recording scope sets the
process-wide flag and returns the previous state for restoration at exit. -/
def enterRecord (s : AD) : AD × Bool :=
  ({ s with recording := true }, s.recording)

/-- Modelled from the spec: exiting the recording scope restores the saved
flag, whatever intermediate state the body produced. -/
def exitRecord (saved : Bool) (s : AD) : AD :=
  { s with recording := saved }

/-- Allocate the output tensor of a primitive operation and, when the
recording flag is active, append one Operation Record to the Trace. -/
def recordOp (s : AD) (k : OpKind) (ins : List Nat) (v : List ℚ) : AD × Nat :=
  ({ s with
      vals := s.vals ++ [v],
      trace := if s.recording then s.trace ++ [⟨k, ins, s.vals.length⟩] else s.trace },
   s.vals.length)

/-- Forward-pass shape error. -/
inductive FErr : Type where
  | ShapeMismatch : FErr
deriving DecidableEq

/-- Elementwise tensor multiplication (z = x * y on same-shaped tensors). -/
def opMul (s : AD) (a b : Nat) : Except FErr (AD × Nat) :=
  if (s.vals.getD a []).length = (s.vals.getD b []).length then
    Except.ok (recordOp s OpKind.mulT [a, b] (mulL (s.vals.getD a []) (s.vals.getD b [])))
  else Except.error FErr.ShapeMismatch

/-- Elementwise tensor addition. -/
def opAdd (s : AD) (a b : Nat) : Except FErr (AD × Nat) :=
  if (s.vals.getD a []).length = (s.vals.getD b []).length then
    Except.ok (recordOp s OpKind.add [a, b] (addL (s.vals.getD a []) (s.vals.getD b [])))
  else Except.error FErr.ShapeMismatch

/-- Tensor-by-scalar multiplication (y = x * 2, c = 100 * b in the notebooks). -/
def opSMul (s : AD) (c : ℚ) (a : Nat) : AD × Nat :=
  recordOp s (OpKind.smul c) [a] (scaleL c (s.vals.getD a []))

/-- Reduction-sum to a scalar (one-element) tensor. -/
def opSum (s : AD) (a : Nat) : AD × Nat :=
  recordOp s OpKind.sumAll [a] [(s.vals.getD a []).sum]

/-- Squared euclidean norm of a flat tensor value. -/
def normSqL (l : List ℚ) : ℚ := (l.map (fun t => t * t)).sum

/-- Squared euclidean norm of a tensor's current values. -/
def normSqVal (s : AD) (a : Nat) : ℚ :=
  normSqL (s.vals.getD a [])

/-- Comparison used by the notebook's loop guard, norm(b) < c.  Comparisons
produce a plain boolean, append nothing to the Trace, and so contribute no
gradient edge to their operands.  Modelled on squared values: for c > 0,
norm(b) < c holds iff normSq(b) < c * c. -/
def normLtB (s : AD) (a : Nat) (c : ℚ) : Bool :=
  decide (normSqVal s a < c * c)

/-- Comparison used by the notebook's branch guard, sum(b) > 0; boolean
result, no Trace mutation. -/
def sumPosB (s : AD) (a : Nat) : Bool :=
  decide (0 < (s.vals.getD a []).sum)

/-- Local backward rule of each Operation Record: maps the incoming
gradient to one outgoing gradient per input (the operation's closed-form
local derivative, per the spec's operation contracts). -/
def backRule (vals : List (List ℚ)) (k : OpKind) (ins : List Nat) (g : List ℚ) :
    List (List ℚ) :=
  match k, ins with
  | OpKind.add, [_, _] => [g, g]
  | OpKind.mulT, [a, b] => [mulL g (vals.getD b []), mulL g (vals.getD a [])]
  | OpKind.smul c, [_] => [scaleL c g]
  | OpKind.sumAll, [a] => [List.replicate (vals.getD a []).length (g.headD 0)]
  | _, _ => []

/-- Accumulate one input's gradient contribution into the per-pass gradient
buffer and mark the input as reached. -/
def propagate (acc : (Nat → List ℚ) × (Nat → Bool)) (p : Nat × List ℚ) :
    (Nat → List ℚ) × (Nat → Bool) :=
  (upd acc.1 p.1 (addL (acc.1 p.1) p.2), upd acc.2 p.1 true)

/-- Process one Operation Record during the backward traversal: when its
output has been reached, apply the backward rule to the output's buffered
gradient and propagate to each input; otherwise skip. -/
def step (vals : List (List ℚ)) (acc : (Nat → List ℚ) × (Nat → Bool)) (r : OpRec) :
    (Nat → List ℚ) × (Nat → Bool) :=
  if acc.2 r.out then
    (r.inputs.zip (backRule vals r.kind r.inputs (acc.1 r.out))).foldl propagate acc
  else acc

/-- Whether a tensor id is the output of some record of the Trace (the
spec's precondition for backward: produced while recording was active). -/
def producedBy (tr : List OpRec) (t : Nat) : Bool :=
  tr.any (fun r => r.out == t)

/-- Backward-engine errors. -/
inductive BErr : Type where
  | NoGraph : BErr
  | SeedShapeMismatch : BErr
deriving DecidableEq

/-- Modelled from the spec: the Backward Engine missing from the
repository.  Fails with NoGraph when the result tensor was not produced
under recording, with SeedShapeMismatch when an explicit seed has the
wrong shape — both checked before any mutation.  Otherwise walks the
Trace in reverse topological order (the arena order of the append-only
Trace), buffering and summing fan-in contributions per tensor, and
finally stores into each reached attached Gradient Slot the gradient
computed by this pass.  The final store writes the pass's gradient
(rather than adding it to the slot's previous contents): the notebook's
recorded outputs fix this choice — after a second backward call without
clearing, cell 46 prints 4*x*s, not 4*x + 4*x*s. -/
def backward (s : AD) (r : Nat) (sd : Option (List ℚ)) : Except BErr AD :=
  if producedBy s.trace r then
    let n := (s.vals.getD r []).length
    let seed := sd.getD (List.replicate n 1)
    if seed.length = n then
      let g0 : Nat → List ℚ := fun i => List.replicate ((s.vals.getD i []).length) 0
      let res := (s.trace.reverse).foldl (step s.vals)
        (upd g0 r seed, upd (fun _ => false) r true)
      Except.ok { s with slots := fun i =>
        (match s.slots i with
         | some old => if res.2 i then some (res.1 i) else some old
         | none => none) }
    else Except.error BErr.SeedShapeMismatch
  else Except.error BErr.NoGraph

/-- The notebook's first traced computation: x a leaf with attached slot,
then under recording y = x * 2 and z = y * x.  Returns the final state and
the id of z (x always gets id 0). -/
def traceF (xv : List ℚ) : Option (AD × Nat) :=
  let p1 := newTensor AD.empty xv
  let s2 := attach_grad p1.1 p1.2
  let p3 := enterRecord s2
  let p4 := opSMul p3.1 2 p1.2
  match opMul p4.1 p4.2 p1.2 with
  | Except.ok p5 => some (exitRecord p3.2 p5.1, p5.2)
  | Except.error _ => none

/-- Run the notebook's first example end to end: trace z = (x*2)*x, call
backward with no seed, and read x's gradient slot. -/
def runF (xv : List ℚ) : Option (List ℚ) :=
  match traceF xv with
  | some (s, z) =>
      match backward s z none with
      | Except.ok s' => s'.slots 0
      | Except.error _ => none
  | none => none

/-- Run the first example with an explicit head gradient sv: trace
z = (x*2)*x, call backward with seed sv, read x's gradient slot. -/
def runF2 (xv sv : List ℚ) : Option (List ℚ) :=
  match traceF xv with
  | some (s, z) =>
      match backward s z (some sv) with
      | Except.ok s' => s'.slots 0
      | Except.error _ => none
  | none => none

/-- The notebook's double-backward sequence (cells 43 to 46): trace
z = (x*2)*x and call backward with no seed; then, without clearing the
slot, re-record y = x*2, z = y*x on the same leaf and call backward with
head gradient sv; read x's gradient slot. -/
def runTwice (xv sv : List ℚ) : Option (List ℚ) :=
  match traceF xv with
  | some (s, z) =>
      match backward s z none with
      | Except.ok s1 =>
          let p3 := enterRecord s1
          let p4 := opSMul p3.1 2 0
          match opMul p4.1 p4.2 0 with
          | Except.ok p5 =>
              match backward (exitRecord p3.2 p5.1) p5.2 (some sv) with
              | Except.ok s7 => s7.slots 0
              | Except.error _ => none
          | Except.error _ => none
      | Except.error _ => none
  | none => none

/-- Closed form of the double-backward sequence: the second backward pass
stores its own gradient 4*x*sv, and the first pass's 4*x is gone — the
slot is written, not accumulated into, matching the notebook's recorded
outputs. -/
theorem runTwice_eq (xv sv : List ℚ) (h : sv.length = xv.length) :
    runTwice xv sv = some (mulL (scaleL 4 xv) sv) := by
  simp [runTwice, traceF, newTensor, AD.empty, attach_grad, enterRecord, opSMul,
    opMul, recordOp, exitRecord, backward, producedBy, step, backRule, propagate,
    upd, addL, mulL, scaleL, h]
  induction xv generalizing sv with
  | nil => simp
  | cons x xs ih =>
      match sv, h with
      | s :: ss, h =>
          simp only [List.length_cons, Nat.succ.injEq] at h
          simp only [List.length_cons, List.replicate_succ, List.zipWith_cons_cons,
            List.map_cons, List.cons.injEq]
          exact ⟨by ring, ih ss h⟩

/-- Closed form of the first example: backward with the default seed
leaves 4*x in x's slot, for every x. -/
theorem runF_eq (xv : List ℚ) : runF xv = some (scaleL 4 xv) := by
  simp [runF, traceF, newTensor, AD.empty, attach_grad, enterRecord, opSMul,
    opMul, recordOp, exitRecord, backward, producedBy, step, backRule, propagate,
    upd, addL, mulL, scaleL]
  induction xv with
  | nil => rfl
  | cons x xs ih =>
      simp only [List.length_cons, List.replicate_succ, List.zipWith_cons_cons,
        List.map_cons, List.cons.injEq] at ih ⊢
      refine ⟨by ring, ih⟩

/-- Closed form of the seeded first example: backward with head gradient
sv leaves 4*x*sv (elementwise) in x's slot, for every x and every
same-shaped sv. -/
theorem runF2_eq (xv sv : List ℚ) (h : sv.length = xv.length) :
    runF2 xv sv = some (mulL (scaleL 4 xv) sv) := by
  simp [runF2, traceF, newTensor, AD.empty, attach_grad, enterRecord, opSMul,
    opMul, recordOp, exitRecord, backward, producedBy, step, backRule, propagate,
    upd, addL, mulL, scaleL, h]
  induction xv generalizing sv with
  | nil => simp
  | cons x xs ih =>
      match sv, h with
      | s :: ss, h =>
          simp only [List.length_cons, Nat.succ.injEq] at h
          simp only [List.length_cons, List.replicate_succ, List.zipWith_cons_cons,
            List.map_cons, List.cons.injEq]
          exact ⟨by ring, ih ss h⟩

/-- C1: for f(x) = 2*x*x, traced under an active recording scope as
y = x*2 then z = y*x, calling backward() on z with no seed leaves x's
gradient slot equal to 4*x elementwise, for every x with an attached
slot; in particular x = [[1,2],[3,4]] (flattened) gives [[4,8],[12,16]]. -/
theorem C1_default_backward_grad :
    (∀ xv : List ℚ, runF xv = some (scaleL 4 xv)) ∧
    runF [1, 2, 3, 4] = some [4, 8, 12, 16] := by
  refine ⟨runF_eq, ?_⟩
  rw [runF_eq]
  norm_num [scaleL]

/-- C2: for the same traced z = (x*2)*x, backward(seed) with a head
gradient sv of z's shape leaves x's slot equal to 4*x*sv elementwise
(the Jacobian-vector product with sv), for every x with an attached slot. -/
theorem C2_seeded_backward_grad (xv sv : List ℚ) (h : sv.length = xv.length) :
    runF2 xv sv = some (mulL (scaleL 4 xv) sv) :=
  runF2_eq xv sv h

/-- Witness for C2 at the notebook's concrete input: x = [[1,2],[3,4]],
s = [[10,1],[0.1,0.01]] gives gradient [[40,8],[1.2,0.16]]. -/
theorem C2_seeded_backward_grad_witness :
    ([10, 1, (1:ℚ)/10, 1/100] : List ℚ).length = ([1, 2, 3, 4] : List ℚ).length ∧
    runF2 [1, 2, 3, 4] [10, 1, 1/10, 1/100] = some [40, 8, 6/5, 4/25] := by
  refine ⟨rfl, ?_⟩
  rw [C2_seeded_backward_grad [1, 2, 3, 4] [10, 1, 1/10, 1/100] rfl]
  norm_num [mulL, scaleL]

/-- C3 counterexample: at x = [1,2,3,4] the first backward leaves
[4,8,12,16]; the second backward with seed [10,1,0.1,0.01], run without
clearing the slot, leaves [40,8,1.2,0.16] — its own gradient — and not
the sum of the two individual gradients, refuting accumulation.  This is
exactly the behaviour the notebook's recorded outputs show (cells 45, 46). -/
theorem C3_accumulation_counterexample :
    runF [1, 2, 3, 4] = some [4, 8, 12, 16] ∧
    runF2 [1, 2, 3, 4] [10, 1, 1/10, 1/100] = some [40, 8, 6/5, 4/25] ∧
    runTwice [1, 2, 3, 4] [10, 1, 1/10, 1/100] = some [40, 8, 6/5, 4/25] ∧
    runTwice [1, 2, 3, 4] [10, 1, 1/10, 1/100] ≠
      some (addL [4, 8, 12, 16] [40, 8, 6/5, 4/25]) := by
  rw [runF_eq, runF2_eq [1, 2, 3, 4] [10, 1, 1/10, 1/100] rfl,
    runTwice_eq [1, 2, 3, 4] [10, 1, 1/10, 1/100] rfl]
  norm_num [mulL, scaleL, addL]

/-- C3 amended: each backward pass stores into the reached slots the
gradient computed by that pass (fan-in within one pass is summed), so a
second backward without clearing leaves the second pass's gradient alone,
exactly as if the first backward had not happened. -/
theorem C3_overwrite_semantics (xv sv : List ℚ) (h : sv.length = xv.length) :
    runTwice xv sv = some (mulL (scaleL 4 xv) sv) ∧
    runTwice xv sv = runF2 xv sv :=
  ⟨runTwice_eq xv sv h, by rw [runTwice_eq xv sv h, runF2_eq xv sv h]⟩

/-- Witness for the amended C3 at a concrete input. -/
theorem C3_overwrite_semantics_witness :
    ([2, (1:ℚ)] : List ℚ).length = ([5, (7:ℚ)] : List ℚ).length ∧
    runTwice [5, 7] [2, 1] = some [40, 28] ∧
    runTwice [5, 7] [2, 1] = runF2 [5, 7] [2, 1] := by
  have h := C3_overwrite_semantics [5, 7] [2, 1] rfl
  refine ⟨rfl, ?_, h.2⟩
  rw [h.1]
  norm_num [mulL, scaleL]

/-- C8: the recording controller's state is stack-scoped and always
restored: entry activates recording; exit (applied to whatever state the
scope body produced, covering early returns and errors) restores the flag
saved at entry; nested entry is idempotent, recording staying active
until the outermost exit; and operation records are appended to the Trace
exactly when the flag is active. -/
theorem C8_recording_scope :
    (∀ s : AD, (enterRecord s).1.recording = true) ∧
    (∀ s s' : AD, (exitRecord (enterRecord s).2 s').recording = s.recording) ∧
    (∀ s s' : AD, (exitRecord (enterRecord (enterRecord s).1).2 s').recording = true) ∧
    (∀ (s : AD) (k : OpKind) (ins : List Nat) (v : List ℚ),
      (s.recording = false → (recordOp s k ins v).1.trace = s.trace) ∧
      (s.recording = true →
        (recordOp s k ins v).1.trace = s.trace ++ [⟨k, ins, s.vals.length⟩])) := by
  refine ⟨fun s => rfl, fun s s' => rfl, fun s s' => rfl,
    fun s k ins v => ⟨?_, ?_⟩⟩ <;> intro h <;> simp [recordOp, h]

/-- Witness for C8: with recording inactive nothing is appended; with it
active exactly one record is appended. -/
theorem C8_recording_scope_witness :
    (recordOp AD.empty OpKind.add [0, 0] []).1.trace = AD.empty.trace ∧
    (recordOp (enterRecord AD.empty).1 OpKind.add [0, 0] []).1.trace =
      (enterRecord AD.empty).1.trace ++
        [⟨OpKind.add, [0, 0], (enterRecord AD.empty).1.vals.length⟩] :=
  ⟨(C8_recording_scope.2.2.2 AD.empty OpKind.add [0, 0] []).1 rfl,
   (C8_recording_scope.2.2.2 (enterRecord AD.empty).1 OpKind.add [0, 0] []).2 rfl⟩

/-- Reading an updated list position back, inside bounds. -/
theorem getD_set_self (l : List (List ℚ)) (i : Nat) (v d : List ℚ) (h : i < l.length) :
    (l.set i v).getD i d = v := by
  simp [List.getD_eq_getElem?_getD, List.getElem?_set_self h]

/-- Reading a list position other than the updated one. -/
theorem getD_set_ne (l : List (List ℚ)) (i j : Nat) (v d : List ℚ) (h : i ≠ j) :
    (l.set i v).getD j d = l.getD j d := by
  simp [List.getD_eq_getElem?_getD, List.getElem?_set_ne h]

/-- The from-scratch optimizer of the regression notebook: for each
parameter, the in-place update param[:] = param - lr * param.grad, reading
the attached Gradient Slot and writing the parameter's arena entry at the
same tensor id. -/
def SGD (s : AD) (params : List Nat) (lr : ℚ) : AD :=
  params.foldl (fun st p =>
    (match st.slots p with
     | some g => { st with vals := st.vals.set p (subL (st.vals.getD p []) (scaleL lr g)) }
     | none => st)) s

/-- SGD never touches the gradient slots, the Trace, or the recording flag,
and preserves the arena's length. -/
theorem SGD_frame (params : List Nat) (lr : ℚ) : ∀ s : AD,
    (SGD s params lr).slots = s.slots ∧ (SGD s params lr).trace = s.trace ∧
    (SGD s params lr).recording = s.recording ∧
    (SGD s params lr).vals.length = s.vals.length := by
  induction params with
  | nil => exact fun s => ⟨rfl, rfl, rfl, rfl⟩
  | cons p ps ih =>
      intro s
      simp only [SGD, List.foldl_cons] at *
      rcases h : s.slots p with _ | g <;> simp only [h] <;>
        first
          | exact ih s
          | exact ⟨(ih _).1, (ih _).2.1, (ih _).2.2.1, by
              rw [(ih _).2.2.2]; exact List.length_set ..⟩

/-- SGD leaves the arena entries of tensors outside the parameter list
untouched. -/
theorem SGD_vals_not_mem (params : List Nat) (lr : ℚ) : ∀ (s : AD) (q : Nat),
    q ∉ params → (SGD s params lr).vals.getD q [] = s.vals.getD q [] := by
  induction params with
  | nil => exact fun s q _ => rfl
  | cons p ps ih =>
      intro s q hq
      simp only [List.mem_cons, not_or] at hq
      simp only [SGD, List.foldl_cons] at *
      rcases h : s.slots p with _ | g <;> simp only [h]
      · exact ih s q hq.2
      · rw [ih _ q hq.2]
        exact getD_set_ne _ _ _ _ _ (fun e => hq.1 e.symm)

/-- For a duplicate-free parameter list, SGD leaves each listed parameter
holding its old value minus lr times its gradient slot. -/
theorem SGD_vals_mem (params : List Nat) (lr : ℚ) (hnd : params.Nodup) :
    ∀ (s : AD) (p : Nat) (g : List ℚ), p ∈ params → p < s.vals.length →
      s.slots p = some g →
      (SGD s params lr).vals.getD p [] = subL (s.vals.getD p []) (scaleL lr g) := by
  induction params with
  | nil => intro s p g hp; exact absurd hp (List.not_mem_nil p)
  | cons q qs ih =>
      intro s p g hp hlt hslot
      rcases List.nodup_cons.mp hnd with ⟨hq, hqs⟩
      simp only [SGD, List.foldl_cons] at *
      rcases List.mem_cons.mp hp with rfl | hp'
      · rw [hslot]
        have hnot := SGD_vals_not_mem qs lr
          { s with vals := s.vals.set p (subL (s.vals.getD p []) (scaleL lr g)) } p hq
        simp only [SGD] at hnot
        rw [hnot]
        exact getD_set_self _ _ _ _ hlt
      · have hpq : q ≠ p := fun e => hq (e ▸ hp')
        rcases hsq : s.slots q with _ | gq
        · simp only [hsq]
          exact ih hqs s p g hp' hlt hslot
        · simp only [hsq]
          exact (ih hqs
              ⟨s.vals.set q (subL (s.vals.getD q []) (scaleL lr gq)),
                s.slots, s.trace, s.recording⟩ p g hp'
              (by simpa using hlt) hslot).trans
            (by rw [getD_set_ne _ _ _ _ _ hpq])

/-- C9: SGD(params, lr) performs the explicit in-place write
param[:] = param - lr * param.grad at each parameter's own tensor id: for
every state, duplicate-free parameter list and learning rate, afterwards
each listed parameter holds its old value minus lr times its gradient
slot, while the gradient slots themselves, the Trace, the recording flag,
the arena's length, and every other tensor's values are unchanged — SGD
records nothing whether or not recording is active. -/
theorem C9_sgd_inplace_update (s : AD) (params : List Nat) (lr : ℚ)
    (hnd : params.Nodup) :
    (∀ p g, p ∈ params → p < s.vals.length → s.slots p = some g →
      (SGD s params lr).vals.getD p [] = subL (s.vals.getD p []) (scaleL lr g)) ∧
    (SGD s params lr).slots = s.slots ∧
    (SGD s params lr).trace = s.trace ∧
    (SGD s params lr).recording = s.recording ∧
    (SGD s params lr).vals.length = s.vals.length ∧
    (∀ q, q ∉ params → (SGD s params lr).vals.getD q [] = s.vals.getD q []) :=
  ⟨fun p g hp hlt hs => SGD_vals_mem params lr hnd s p g hp hlt hs,
   (SGD_frame params lr s).1, (SGD_frame params lr s).2.1,
   (SGD_frame params lr s).2.2.1, (SGD_frame params lr s).2.2.2,
   fun q hq => SGD_vals_not_mem params lr s q hq⟩

/-- Witness for C9: a one-parameter state with value [1,2], gradient
slot [3,4] and lr = 1/2 steps to [-1/2, 0], slots unchanged. -/
theorem C9_sgd_inplace_update_witness :
    (SGD ⟨[[1, 2]], upd (fun _ => none) 0 (some [3, 4]), [], false⟩ [0] (1/2)).vals.getD 0 []
      = [-(1/2 : ℚ), 0] ∧
    (SGD ⟨[[1, 2]], upd (fun _ => none) 0 (some [3, 4]), [], false⟩ [0] (1/2)).slots
      = (AD.mk [[1, 2]] (upd (fun _ => none) 0 (some [3, 4])) [] false).slots := by
  have h := C9_sgd_inplace_update
    ⟨[[1, 2]], upd (fun _ => none) 0 (some [3, 4]), [], false⟩ [0] (1/2) (by decide)
  refine ⟨?_, h.2.1⟩
  rw [h.1 0 [3, 4] (by decide) (by decide) rfl]
  norm_num [subL, scaleL]

/-- Mean of a flat tensor's entries (nd.mean). -/
def meanL (l : List ℚ) : ℚ := l.sum / l.length

/-- The regression notebook's loss: square_loss(yhat, y) =
nd.mean((yhat - y) * (yhat - y)), embedded from the source. -/
def square_loss (yhat y : List ℚ) : ℚ :=
  meanL (mulL (subL yhat y) (subL yhat y))

/-- The claim's wording, stated independently: the average (not the sum)
of the elementwise squared differences. -/
def meanSqDiff (yhat y : List ℚ) : ℚ :=
  (List.zipWith (fun a b => (a - b) ^ 2) yhat y).sum / yhat.length

/-- Elementwise: (a-b)*(a-b) is the squared difference. -/
theorem sqDiff_eq : ∀ a b : List ℚ,
    mulL (subL a b) (subL a b) = List.zipWith (fun x y => (x - y) ^ 2) a b := by
  intro a
  induction a with
  | nil => intro b; rfl
  | cons x xs ih =>
      intro b
      cases b with
      | nil => rfl
      | cons y ys =>
          simp only [mulL, subL, List.zipWith_cons_cons, List.cons.injEq] at *
          exact ⟨by ring, ih ys⟩

/-- Elementwise squared differences are symmetric in their arguments. -/
theorem sqDiff_comm : ∀ a b : List ℚ,
    List.zipWith (fun x y => (x - y) ^ 2) a b =
      List.zipWith (fun x y => (x - y) ^ 2) b a := by
  intro a
  induction a with
  | nil => intro b; cases b <;> rfl
  | cons x xs ih =>
      intro b
      cases b with
      | nil => rfl
      | cons y ys =>
          simp only [List.zipWith_cons_cons, List.cons.injEq]
          exact ⟨by ring, ih ys⟩

/-- C10: square_loss(yhat, y) is the scalar mean — average, not sum — of
the elementwise squared differences, for every pair of same-shaped
tensors, and it is symmetric in its two arguments. -/
theorem C10_square_loss_mean_sym (yhat y : List ℚ) (h : yhat.length = y.length) :
    square_loss yhat y = meanSqDiff yhat y ∧
    square_loss yhat y = square_loss y yhat := by
  constructor
  · rw [square_loss, meanL, meanSqDiff, sqDiff_eq]
    rw [List.length_zipWith, h, Nat.min_self]
  · rw [square_loss, square_loss, meanL, meanL, sqDiff_eq, sqDiff_eq,
      sqDiff_comm yhat y]

/-- Witness for C10: square_loss([1,3],[0,1]) = ((1-0)^2 + (3-1)^2)/2 = 5/2,
and symmetry at the same input. -/
theorem C10_square_loss_mean_sym_witness :
    ([1, (3:ℚ)] : List ℚ).length = ([0, (1:ℚ)] : List ℚ).length ∧
    square_loss [1, 3] [0, 1] = 5/2 ∧
    square_loss [1, 3] [0, 1] = square_loss [0, 1] [1, 3] := by
  have h := C10_square_loss_mean_sym [1, 3] [0, 1] rfl
  refine ⟨rfl, ?_, h.2⟩
  rw [h.1]
  norm_num [meanSqDiff]

/-- Modelled from the spec: the external batch-iteration utility
(mx.io.NDArrayIter), described only by contract in the spec.  State: the
examples remaining in the current pass, the full dataset, the batch size. -/
structure NDIter (γ : Type) : Type where
  remaining : List γ
  src : List γ
  bsize : Nat

/-- Build the iterator over the zipped (feature, label) examples. -/
def NDArrayIter {α β : Type} (xs : List α) (ys : List β) (b : Nat) :
    NDIter (α × β) :=
  ⟨xs.zip ys, xs.zip ys, b⟩

/-- Yield the next batch (up to bsize examples) and the advanced iterator,
or none when the current pass is exhausted. -/
def NDIter.next {γ : Type} (it : NDIter γ) : Option (List γ × NDIter γ) :=
  match it.remaining with
  | [] => none
  | x :: xs => some ((x :: xs).take it.bsize, ⟨(x :: xs).drop it.bsize, it.src, it.bsize⟩)

/-- Modelled from the spec: reset installs a fresh, possibly reshuffled,
full pass; the caller supplies the reshuffled order (a permutation of the
dataset). -/
def NDIter.reset {γ : Type} (it : NDIter γ) (shuffled : List γ) : NDIter γ :=
  ⟨shuffled, it.src, it.bsize⟩

/-- Drain the iterator with explicit fuel: the batches yielded and the
final iterator state. -/
def drainF {γ : Type} : Nat → NDIter γ → List (List γ) × NDIter γ
  | 0, it => ([], it)
  | f + 1, it =>
      match it.next with
      | none => ([], it)
      | some (bt, it') =>
          let r := drainF f it'
          (bt :: r.1, r.2)

/-- Drain one full pass (the remaining length bounds the number of yields
as soon as the batch size is positive). -/
def drain {γ : Type} (it : NDIter γ) : List (List γ) × NDIter γ :=
  drainF it.remaining.length it

/-- Characterization of a full drain: the batches concatenate back to the
remaining examples, their number is the ceiling of length over batch
size, and the final state is the exhausted iterator. -/
theorem drainF_spec {γ : Type} (b : Nat) (hb : 0 < b) :
    ∀ (f : Nat) (l src : List γ), l.length ≤ f →
      (drainF f ⟨l, src, b⟩).1.flatten = l ∧
      (drainF f ⟨l, src, b⟩).1.length = (l.length + b - 1) / b ∧
      (drainF f ⟨l, src, b⟩).2 = ⟨[], src, b⟩ := by
  intro f
  induction f with
  | zero =>
      intro l src hl
      rw [Nat.le_zero, List.length_eq_zero] at hl
      subst hl
      exact ⟨rfl, by simpa using (Nat.div_eq_of_lt (by omega)).symm, rfl⟩
  | succ f ih =>
      intro l src hl
      cases l with
      | nil =>
          exact ⟨rfl, by simpa using (Nat.div_eq_of_lt (by omega)).symm, rfl⟩
      | cons x xs =>
          have hdrop : ((x :: xs).drop b).length ≤ f := by
            rw [List.length_drop]
            simp only [List.length_cons] at hl ⊢
            omega
          obtain ⟨hj, hc, hf⟩ := ih ((x :: xs).drop b) src hdrop
          simp only [drainF, NDIter.next]
          refine ⟨by rw [List.flatten_cons, hj]; exact List.take_append_drop b (x :: xs), ?_, hf⟩
          simp only [List.length_cons, hc, List.length_drop]
          have h1 : xs.length + 1 + b - 1 = (xs.length + 1 - 1) + b := by omega
          rw [h1, Nat.add_div_right _ hb]
          rcases Nat.le_total b (xs.length + 1) with hle | hle
          · have : xs.length + 1 - b + b - 1 = xs.length + 1 - 1 := by omega
            rw [this]
          · have h2 : xs.length + 1 - b = 0 := by omega
            rw [h2]
            rw [Nat.div_eq_of_lt (by omega), Nat.div_eq_of_lt (by omega)]

/-- C6: the batch iterator yields a finite full pass whose batches
concatenate to the whole dataset, numbering ceil(n / b); exhausted, it
yields zero batches on any further pass until reset; reset with any
reshuffled order (a permutation of the dataset) yields a complete full
pass again; and 10000 examples at batch size 4 give exactly 2500 batches. -/
theorem C6_iterator_reset (xs : List (List ℚ)) (ys : List ℚ) (b : Nat)
    (hb : 0 < b) :
    (drain (NDArrayIter xs ys b)).1.flatten = xs.zip ys ∧
    (drain (NDArrayIter xs ys b)).1.length = ((xs.zip ys).length + b - 1) / b ∧
    (drain (NDArrayIter xs ys b)).2.next = none ∧
    (∀ f, (drainF f (drain (NDArrayIter xs ys b)).2).1 = []) ∧
    (∀ σ : List (List ℚ × ℚ), σ.Perm (xs.zip ys) →
      (drain (((drain (NDArrayIter xs ys b)).2.reset σ))).1.flatten = σ ∧
      (drain (((drain (NDArrayIter xs ys b)).2.reset σ))).1.length =
        ((xs.zip ys).length + b - 1) / b) ∧
    (xs.length = 10000 → ys.length = 10000 →
      (drain (NDArrayIter xs ys 4)).1.length = 2500) := by
  obtain ⟨hj, hc, hf⟩ := drainF_spec b hb (xs.zip ys).length (xs.zip ys) (xs.zip ys) le_rfl
  have hdrain : drain (NDArrayIter xs ys b) = drainF (xs.zip ys).length ⟨xs.zip ys, xs.zip ys, b⟩ := rfl
  refine ⟨by rw [hdrain, hj], by rw [hdrain, hc], ?_, ?_, ?_, ?_⟩
  · rw [hdrain, hf]; rfl
  · intro f
    rw [hdrain, hf]
    cases f <;> rfl
  · intro σ hσ
    obtain ⟨hj2, hc2, _⟩ := drainF_spec b hb σ.length σ (xs.zip ys) le_rfl
    have hr : (drain (NDArrayIter xs ys b)).2.reset σ = ⟨σ, xs.zip ys, b⟩ := by
      rw [hdrain, hf]; rfl
    have hd2 : drain ((drain (NDArrayIter xs ys b)).2.reset σ) =
        drainF σ.length ⟨σ, xs.zip ys, b⟩ := by rw [hr]; rfl
    rw [hd2, hj2, hc2, hσ.length_eq]
    exact ⟨rfl, rfl⟩
  · intro hx hy
    obtain ⟨_, hc4, _⟩ := drainF_spec 4 (by omega) (xs.zip ys).length (xs.zip ys) (xs.zip ys) le_rfl
    have hdrain4 : drain (NDArrayIter xs ys 4) = drainF (xs.zip ys).length ⟨xs.zip ys, xs.zip ys, 4⟩ := rfl
    rw [hdrain4, hc4, List.length_zip, hx, hy]
    decide

/-- Witness for C6 at a concrete dataset of three examples with batch
size two: the pass covers the data in two batches, the exhausted iterator
yields nothing, and after a reset with the reversed order the new full
pass covers the reversed data. -/
theorem C6_iterator_reset_witness :
    (drain (NDArrayIter ([[1], [2], [3]] : List (List ℚ)) ([10, 20, 30] : List ℚ) 2)).1.flatten
      = ([[1], [2], [3]] : List (List ℚ)).zip ([10, 20, 30] : List ℚ) ∧
    (drain (NDArrayIter ([[1], [2], [3]] : List (List ℚ)) ([10, 20, 30] : List ℚ) 2)).1.length = 2 ∧
    (drain (NDArrayIter ([[1], [2], [3]] : List (List ℚ)) ([10, 20, 30] : List ℚ) 2)).2.next = none ∧
    (drain ((drain (NDArrayIter ([[1], [2], [3]] : List (List ℚ)) ([10, 20, 30] : List ℚ) 2)).2.reset
        ((([[1], [2], [3]] : List (List ℚ)).zip ([10, 20, 30] : List ℚ)).reverse))).1.flatten
      = (([[1], [2], [3]] : List (List ℚ)).zip ([10, 20, 30] : List ℚ)).reverse := by
  have h := C6_iterator_reset [[1], [2], [3]] ([10, 20, 30] : List ℚ) 2 (by decide)
  refine ⟨h.1, ?_, h.2.2.1, (h.2.2.2.2.1 _ (List.reverse_perm _)).1⟩
  rw [h.2.1]
  decide

/-- The state a caller observes after invoking backward: the updated state
on success, the unchanged prior state when backward fails (the failure
surfaces as a raised error, leaving every slot as it was). -/
def backwardRun (s : AD) (r : Nat) (sd : Option (List ℚ)) : AD :=
  match backward s r sd with
  | Except.ok s' => s'
  | Except.error _ => s

/-- C7: backward on a tensor not produced under recording fails with
NoGraph; an explicit seed of the wrong shape fails with
SeedShapeMismatch; every failure leaves the observed state — in
particular every Gradient Slot — exactly as it was; and success changes
nothing but the slots (arena values, Trace and recording flag are
untouched, and slot attachment is preserved in both directions). -/
theorem C7_backward_errors_atomic :
    (∀ (s : AD) (r : Nat) (sd : Option (List ℚ)),
      producedBy s.trace r = false → backward s r sd = Except.error BErr.NoGraph) ∧
    (∀ (s : AD) (r : Nat) (sv : List ℚ),
      sv.length ≠ (s.vals.getD r []).length →
      backward s r (some sv) = Except.error BErr.NoGraph ∨
      backward s r (some sv) = Except.error BErr.SeedShapeMismatch) ∧
    (∀ (s : AD) (r : Nat) (sd : Option (List ℚ)) (e : BErr),
      backward s r sd = Except.error e → backwardRun s r sd = s) ∧
    (∀ (s : AD) (r : Nat) (sd : Option (List ℚ)) (s' : AD),
      backward s r sd = Except.ok s' →
      s'.vals = s.vals ∧ s'.trace = s.trace ∧ s'.recording = s.recording ∧
      ∀ i, (s'.slots i).isSome = (s.slots i).isSome) := by
  refine ⟨?_, ?_, ?_, ?_⟩
  · intro s r sd h
    simp [backward, h]
  · intro s r sv h
    by_cases hp : producedBy s.trace r
    · right
      have h' : sv.length ≠ (s.vals[r]?.getD []).length := by
        simpa [List.getD] using h
      simp [backward, hp, h']
    · left
      simp [backward, hp]
  · intro s r sd e h
    simp [backwardRun, h]
  · intro s r sd s' h
    rw [backward] at h
    split at h
    · dsimp only at h
      split at h
      · cases h
        refine ⟨rfl, rfl, rfl, fun i => ?_⟩
        dsimp only
        cases s.slots i with
        | none => rfl
        | some old => dsimp only; split <;> rfl
      · cases h
    · cases h

/-- Witness for C7: on the empty state (nothing recorded) backward fails
with NoGraph and the observed state is unchanged; on a one-record state a
seed of the wrong shape fails. -/
theorem C7_backward_errors_atomic_witness :
    backward AD.empty 0 none = Except.error BErr.NoGraph ∧
    backwardRun AD.empty 0 none = AD.empty ∧
    (backward (opSMul (enterRecord (newTensor AD.empty [1]).1).1 2 0).1 1 (some [])
        = Except.error BErr.NoGraph ∨
     backward (opSMul (enterRecord (newTensor AD.empty [1]).1).1 2 0).1 1 (some [])
        = Except.error BErr.SeedShapeMismatch) := by
  have h1 := C7_backward_errors_atomic.1 AD.empty 0 none rfl
  refine ⟨h1, C7_backward_errors_atomic.2.2.1 AD.empty 0 none BErr.NoGraph h1, ?_⟩
  exact C7_backward_errors_atomic.2.1
    (opSMul (enterRecord (newTensor AD.empty [1]).1).1 2 0).1 1 []
    (by simp [opSMul, recordOp, newTensor, enterRecord, AD.empty, scaleL])

/-- Scaling by one is the identity. -/
theorem scaleL_one (l : List ℚ) : scaleL 1 l = l := by
  simp [scaleL]

/-- Composition of scalings multiplies the constants. -/
theorem scaleL_scaleL (a b : ℚ) (l : List ℚ) :
    scaleL a (scaleL b l) = scaleL (a * b) l := by
  simp [scaleL, List.map_map, Function.comp, mul_assoc]

/-- Adding a zero tensor of matching shape is the identity. -/
theorem addL_zeros (n : Nat) : ∀ l : List ℚ, l.length = n →
    addL (List.replicate n 0) l = l := by
  induction n with
  | zero =>
      intro l hl
      rw [List.length_eq_zero] at hl
      subst hl; rfl
  | succ n ih =>
      intro l hl
      cases l with
      | nil => simp at hl
      | cons x xs =>
          simp only [List.length_cons, Nat.succ.injEq] at hl
          simp only [addL, List.replicate_succ, List.zipWith_cons_cons, zero_add]
          rw [show List.zipWith (· + ·) (List.replicate n 0) xs = addL (List.replicate n 0) xs from rfl,
            ih xs hl]

/-- Reading the appended element of a snoc list. -/
theorem getD_append_self (l : List (List ℚ)) (x d : List ℚ) :
    (l ++ [x]).getD l.length d = x := by
  induction l with
  | nil => rfl
  | cons y ys ih => exact ih

/-- Reading below the appended element of a snoc list. -/
theorem getD_append_lt (l : List (List ℚ)) (x d : List ℚ) :
    ∀ i, i < l.length → (l ++ [x]).getD i d = l.getD i d := by
  induction l with
  | nil => intro i hi; simp at hi
  | cons y ys ih =>
      intro i hi
      cases i with
      | zero => rfl
      | succ j =>
          simp only [List.length_cons, Nat.succ_lt_succ_iff] at hi
          simpa using ih j hi

/-- The Trace of a chain of scalar multiplications: tensor off feeds a
scaling by the first constant producing tensor off+1, and so on. -/
def chainRecs : Nat → List ℚ → List OpRec
  | _, [] => []
  | off, c :: cs => ⟨OpKind.smul c, [off], off + 1⟩ :: chainRecs (off + 1) cs

/-- Arena values of such a chain: successive scalings of the leaf value. -/
def chainVals (av : List ℚ) : List ℚ → List (List ℚ)
  | [] => [av]
  | c :: cs => av :: chainVals (scaleL c av) cs

/-- The chain-shaped engine state the control-flow example builds: leaf
value av with an attached zeroed slot at id 0, scalings along cs, and the
given recording flag. -/
def chainAD (av : List ℚ) (cs : List ℚ) (rb : Bool) : AD :=
  ⟨chainVals av cs, upd (fun _ => none) 0 (some (List.replicate av.length 0)),
   chainRecs 0 cs, rb⟩

/-- A chain arena has one entry per scaling plus the leaf. -/
theorem chainVals_length (cs : List ℚ) : ∀ av : List ℚ,
    (chainVals av cs).length = cs.length + 1 := by
  induction cs with
  | nil => intro av; rfl
  | cons c cs ih => intro av; simp [chainVals, ih]

/-- The top entry of a chain arena (read with the snoc index). -/
theorem chainVals_getD_top (cs : List ℚ) : ∀ av d : List ℚ,
    (chainVals av cs).getD cs.length d = scaleL cs.prod av := by
  induction cs with
  | nil => intro av d; simp [chainVals, scaleL_one]
  | cons c cs ih =>
      intro av d
      simp only [chainVals, List.length_cons, List.getD_cons_succ, List.prod_cons]
      rw [ih (scaleL c av) d, scaleL_scaleL]
      ring_nf

/-- Every entry of a chain arena has the leaf's length. -/
theorem chainVals_getD_length (cs : List ℚ) : ∀ (av : List ℚ) (i : Nat),
    i ≤ cs.length → ((chainVals av cs).getD i []).length = av.length := by
  induction cs with
  | nil =>
      intro av i hi
      simp only [List.length_nil, Nat.le_zero] at hi
      subst hi
      rfl
  | cons c cs ih =>
      intro av i hi
      cases i with
      | zero => rfl
      | succ j =>
          simp only [List.length_cons, Nat.succ_le_succ_iff] at hi
          simp only [chainVals, List.getD_cons_succ]
          rw [ih (scaleL c av) j hi]
          simp [scaleL]

/-- Extending a chain arena by one more scaling. -/
theorem chainVals_snoc (cs : List ℚ) : ∀ (av : List ℚ) (c : ℚ),
    chainVals av (cs ++ [c]) =
      chainVals av cs ++ [scaleL c ((chainVals av cs).getD cs.length [])] := by
  induction cs with
  | nil => intro av c; rfl
  | cons d ds ih =>
      intro av c
      simp only [List.cons_append, chainVals, List.length_cons, List.getD_cons_succ,
        List.append_eq]
      rw [ih (scaleL d av) c]

/-- Extending a chain Trace by one more scaling. -/
theorem chainRecs_snoc (cs : List ℚ) : ∀ (off : Nat) (c : ℚ),
    chainRecs off (cs ++ [c]) =
      chainRecs off cs ++ [⟨OpKind.smul c, [off + cs.length], off + cs.length + 1⟩] := by
  induction cs with
  | nil => intro off c; rfl
  | cons d ds ih =>
      intro off c
      simp only [List.cons_append, chainRecs, List.length_cons, List.append_eq]
      rw [ih (off + 1) c]
      have harith : off + 1 + ds.length = off + (ds.length + 1) := by omega
      rw [harith]

/-- The top tensor of a nonempty chain is an output of the chain Trace. -/
theorem chainRecs_producedBy (cs : List ℚ) : ∀ (c : ℚ) (off : Nat),
    producedBy (chainRecs off (c :: cs)) (off + (c :: cs).length) = true := by
  induction cs with
  | nil =>
      intro c off
      simp [chainRecs, producedBy]
  | cons d ds ih =>
      intro c off
      have harith : off + (c :: d :: ds).length = off + 1 + (d :: ds).length := by
        simp only [List.length_cons]; omega
      rw [harith]
      show ((⟨OpKind.smul c, [off], off + 1⟩ : OpRec).out == off + 1 + (d :: ds).length
          || producedBy (chainRecs (off + 1) (d :: ds)) (off + 1 + (d :: ds).length)) = true
      rw [ih d (off + 1)]
      simp

/-- Scaling the top of a recording chain extends the chain state by one
record and one arena entry. -/
theorem opSMul_chain (av : List ℚ) (cs : List ℚ) (c : ℚ) :
    opSMul (chainAD av cs true) c cs.length =
      (chainAD av (cs ++ [c]) true, cs.length + 1) := by
  simp only [opSMul, recordOp, chainAD, Prod.mk.injEq, AD.mk.injEq]
  refine ⟨⟨?_, trivial, ?_, trivial⟩, ?_⟩
  · rw [chainVals_snoc]
  · rw [chainRecs_snoc]
    simp [chainVals_length]
  · simp [chainVals_length]

/-- The notebook's data-dependent loop: keep doubling tensor b while its
norm stays under 1000 (compared on squared values), consuming fuel. -/
def whileDouble : Nat → AD → Nat → AD × Nat
  | 0, s, b => (s, b)
  | f + 1, s, b =>
      if normLtB s b 1000 then
        whileDouble f (opSMul s 2 b).1 (opSMul s 2 b).2
      else (s, b)

/-- Value-level mirror of the loop: the number of doublings performed on a
given start value within the given fuel. -/
def doubleSteps : Nat → List ℚ → Nat
  | 0, _ => 0
  | f + 1, v => if normSqL v < 1000 * 1000 then doubleSteps f (scaleL 2 v) + 1 else 0

/-- Value-level mirror of the loop: the final value of b. -/
def bEnd : Nat → List ℚ → List ℚ
  | 0, v => v
  | f + 1, v => if normSqL v < 1000 * 1000 then bEnd f (scaleL 2 v) else v

/-- Whether the loop's guard goes false within the given fuel (so that the
fuelled model is faithful to the unbounded Python loop). -/
def exitsLoop : Nat → List ℚ → Bool
  | 0, v => decide (1000 * 1000 ≤ normSqL v)
  | f + 1, v => if normSqL v < 1000 * 1000 then exitsLoop f (scaleL 2 v) else true

/-- Running the loop on a chain state appends one doubling record per
value-level doubling step. -/
theorem whileDouble_chain (fuel : Nat) : ∀ (av cs : List ℚ),
    whileDouble fuel (chainAD av cs true) cs.length =
      (chainAD av (cs ++ List.replicate
          (doubleSteps fuel ((chainVals av cs).getD cs.length [])) 2) true,
       cs.length + doubleSteps fuel ((chainVals av cs).getD cs.length [])) := by
  induction fuel with
  | zero => intro av cs; simp [whileDouble, doubleSteps]
  | succ f ih =>
      intro av cs
      have hguard : normLtB (chainAD av cs true) cs.length 1000 =
          decide (normSqL ((chainVals av cs).getD cs.length []) < 1000 * 1000) := rfl
      by_cases hc : normSqL ((chainVals av cs).getD cs.length []) < 1000 * 1000
      · have hg : normLtB (chainAD av cs true) cs.length 1000 = true := by
          rw [hguard]; exact decide_eq_true hc
        have hds : doubleSteps (f + 1) ((chainVals av cs).getD cs.length []) =
            doubleSteps f (scaleL 2 ((chainVals av cs).getD cs.length [])) + 1 := by
          simp only [doubleSteps]
          rw [if_pos hc]
        have htop : (chainVals av (cs ++ [2])).getD (cs ++ [2]).length [] =
            scaleL 2 ((chainVals av cs).getD cs.length []) := by
          rw [chainVals_snoc]
          have hlen : (cs ++ [2] : List ℚ).length = (chainVals av cs).length := by
            simp [chainVals_length]
          rw [hlen, getD_append_self]
        have hlen2 : (cs ++ [2] : List ℚ).length = cs.length + 1 := by simp
        have ih2 := ih av (cs ++ [2])
        rw [htop, hlen2] at ih2
        simp only [whileDouble, hg, if_true, opSMul_chain, hds]
        rw [ih2, List.append_assoc, List.singleton_append, ← List.replicate_succ,
          Prod.mk.injEq]
        exact ⟨rfl, by omega⟩
      · have hg : normLtB (chainAD av cs true) cs.length 1000 = false := by
          rw [hguard]; exact decide_eq_false hc
        have hds : doubleSteps (f + 1) ((chainVals av cs).getD cs.length []) = 0 := by
          simp only [doubleSteps]
          rw [if_neg hc]
        simp only [whileDouble]
        rw [hg, if_neg Bool.false_ne_true, hds]
        simp only [List.replicate_zero, List.append_nil, Nat.add_zero]

/-- Backward over a chain of scalings: folding the reversed chain records
propagates the seed buffered at the top tensor down to the chain's base,
multiplying by each constant on the way; buffer and reached-marks below
the base are untouched. -/
theorem chain_fold (vals : List (List ℚ)) (n : Nat) :
    ∀ (cs : List ℚ) (c : ℚ) (off : Nat) (gbuf : Nat → List ℚ) (tch : Nat → Bool)
      (sd : List ℚ),
      sd.length = n →
      (∀ j, j < (c :: cs).length → gbuf (off + j) = List.replicate n 0) →
      gbuf (off + (c :: cs).length) = sd →
      tch (off + (c :: cs).length) = true →
      ((chainRecs off (c :: cs)).reverse.foldl (step vals) (gbuf, tch)).1 off
          = scaleL (c :: cs).prod sd ∧
      ((chainRecs off (c :: cs)).reverse.foldl (step vals) (gbuf, tch)).2 off = true ∧
      (∀ i, i < off →
        ((chainRecs off (c :: cs)).reverse.foldl (step vals) (gbuf, tch)).1 i = gbuf i ∧
        ((chainRecs off (c :: cs)).reverse.foldl (step vals) (gbuf, tch)).2 i = tch i) := by
  intro cs
  induction cs with
  | nil =>
      intro c off gbuf tch sd hsd hz htop htch
      simp only [List.length_cons, List.length_nil, Nat.zero_add] at htop htch
      have hz0 : gbuf off = List.replicate n 0 := by
        have h := hz 0 (by simp)
        simpa using h
      simp only [chainRecs, List.reverse_cons, List.reverse_nil, List.nil_append,
        List.foldl_cons, List.foldl_nil, step]
      rw [if_pos htch]
      simp only [backRule, List.zip_cons_cons, List.zip_nil_right, List.foldl_cons,
        List.foldl_nil, propagate, htop, hz0]
      rw [addL_zeros n _ (by simp [scaleL, hsd])]
      refine ⟨?_, ?_, ?_⟩
      · simp [upd, List.prod_cons, List.prod_nil]
      · simp [upd]
      · intro i hi
        have hne : i ≠ off := by omega
        simp [upd, hne]
  | cons c' cs' ih =>
      intro c off gbuf tch sd hsd hz htop htch
      have hsplit : (chainRecs off (c :: c' :: cs')).reverse.foldl (step vals) (gbuf, tch)
          = step vals ((chainRecs (off + 1) (c' :: cs')).reverse.foldl (step vals) (gbuf, tch))
              ⟨OpKind.smul c, [off], off + 1⟩ := by
        rw [show chainRecs off (c :: c' :: cs')
            = ⟨OpKind.smul c, [off], off + 1⟩ :: chainRecs (off + 1) (c' :: cs') from rfl]
        rw [List.reverse_cons, List.foldl_append]
        rfl
      have hz' : ∀ j, j < (c' :: cs').length → gbuf (off + 1 + j) = List.replicate n 0 := by
        intro j hj
        have h := hz (j + 1) (by simp only [List.length_cons] at hj ⊢; omega)
        rw [show off + 1 + j = off + (j + 1) from by omega]
        exact h
      have htop' : gbuf (off + 1 + (c' :: cs').length) = sd := by
        rw [show off + 1 + (c' :: cs').length = off + (c :: c' :: cs').length from by
          simp only [List.length_cons]; omega]
        exact htop
      have htch' : tch (off + 1 + (c' :: cs').length) = true := by
        rw [show off + 1 + (c' :: cs').length = off + (c :: c' :: cs').length from by
          simp only [List.length_cons]; omega]
        exact htch
      obtain ⟨h1, h2, h3⟩ := ih c' (off + 1) gbuf tch sd hsd hz' htop' htch'
      have hbase : ((chainRecs (off + 1) (c' :: cs')).reverse.foldl (step vals) (gbuf, tch)).1 off
          = List.replicate n 0 := by
        rw [(h3 off (by omega)).1]
        have h := hz 0 (by simp)
        simpa using h
      rw [hsplit]
      simp only [step]
      rw [if_pos h2]
      simp only [backRule, List.zip_cons_cons, List.zip_nil_right, List.foldl_cons,
        List.foldl_nil, propagate, h1, hbase]
      rw [addL_zeros n _ (by simp [scaleL, hsd])]
      refine ⟨?_, ?_, ?_⟩
      · simp [upd, scaleL_scaleL, List.prod_cons, mul_assoc]
      · simp [upd]
      · intro i hi
        have hne : i ≠ off := by omega
        simp only [upd, if_neg hne]
        exact h3 i (by omega)

/-- Backward on a nonempty chain state succeeds and stores in the leaf's
slot the seed scaled by the product of the chain's constants — whatever
the recording flag is at backward time. -/
theorem chain_backward (av sd : List ℚ) (c : ℚ) (cs : List ℚ) (rb : Bool)
    (h : sd.length = av.length) :
    ∃ s', backward (chainAD av (c :: cs) rb) ((c :: cs).length) (some sd) = Except.ok s' ∧
      s'.slots 0 = some (scaleL (c :: cs).prod sd) := by
  have hpb : producedBy (chainRecs 0 (c :: cs)) ((c :: cs).length) = true := by
    have hp := chainRecs_producedBy cs c 0
    simpa using hp
  have hn : ((chainVals av (c :: cs)).getD ((c :: cs).length) []).length = av.length := by
    rw [chainVals_getD_top]
    simp [scaleL]
  have hcond : sd.length = ((chainVals av (c :: cs)).getD ((c :: cs).length) []).length :=
    h.trans hn.symm
  have hz : ∀ j, j < (c :: cs).length →
      (upd (fun i => List.replicate (((chainVals av (c :: cs)).getD i []).length) 0)
        ((c :: cs).length) sd) (0 + j) = List.replicate av.length 0 := by
    intro j hj
    rw [Nat.zero_add]
    have hne : j ≠ (c :: cs).length := by omega
    simp only [upd, if_neg hne]
    rw [chainVals_getD_length (c :: cs) av j (by omega)]
  have htop : (upd (fun i => List.replicate (((chainVals av (c :: cs)).getD i []).length) 0)
      ((c :: cs).length) sd) (0 + (c :: cs).length) = sd := by
    rw [Nat.zero_add]
    simp [upd]
  have htch : (upd (fun _ => false) ((c :: cs).length) true)
      (0 + (c :: cs).length) = true := by
    rw [Nat.zero_add]
    simp [upd]
  obtain ⟨hf1, hf2, -⟩ := chain_fold (chainVals av (c :: cs)) av.length cs c 0
    (upd (fun i => List.replicate (((chainVals av (c :: cs)).getD i []).length) 0)
      ((c :: cs).length) sd)
    (upd (fun _ => false) ((c :: cs).length) true) sd h hz htop htch
  simp only [backward, chainAD, Option.getD_some]
  rw [if_pos hpb, if_pos hcond]
  refine ⟨_, rfl, ?_⟩
  have hslot0 : (upd (fun _ => none) 0 (some (List.replicate av.length 0)) :
      Nat → Option (List ℚ)) 0 = some (List.replicate av.length 0) := by
    simp [upd]
  dsimp only
  rw [hslot0]
  simp only [hf1, hf2, if_true]

/-- The loop's final value is the start value scaled by 2 to the number of
doublings performed. -/
theorem bEnd_eq (f : Nat) : ∀ v : List ℚ, bEnd f v = scaleL ((2:ℚ) ^ doubleSteps f v) v := by
  induction f with
  | zero => intro v; simp [bEnd, doubleSteps, scaleL_one]
  | succ f ih =>
      intro v
      by_cases hc : normSqL v < 1000 * 1000
      · simp only [bEnd, doubleSteps]
        rw [if_pos hc, if_pos hc, ih (scaleL 2 v), scaleL_scaleL]
        congr 1
        rw [pow_succ]
      · simp only [bEnd, doubleSteps]
        rw [if_neg hc, if_neg hc, pow_zero, scaleL_one]

/-- The notebook's control-flow example, end to end: a leaf a with an
attached slot; under recording b = a * 2, then doubling while norm(b)
stays under 1000 (with fuel to bound the loop), then c = b if sum(b) > 0
else c = 100 * b; backward on c with head gradient sd; read a's slot. -/
def runCF (av : List ℚ) (fuel : Nat) (sd : List ℚ) : Option (List ℚ) :=
  let p1 := newTensor AD.empty av
  let s2 := attach_grad p1.1 p1.2
  let p3 := enterRecord s2
  let p4 := opSMul p3.1 2 p1.2
  let p5 := whileDouble fuel p4.1 p4.2
  let p6 := if sumPosB p5.1 p5.2 then p5 else opSMul p5.1 100 p5.2
  match backward (exitRecord p3.2 p6.1) p6.2 (some sd) with
  | Except.ok s8 => s8.slots 0
  | Except.error _ => none

/-- C5: for the traced data-dependent computation (doubling loop plus
sign branch), backward differentiates exactly the realized path: whenever
the loop's guard resolves within the given fuel, the leaf's gradient slot
receives the closed-form derivative of the branch actually taken — the
seed scaled by 100 * 2^(k+1) on the nonpositive-sum branch and by 2^(k+1)
on the positive-sum branch, k being the number of doublings actually
performed.  The comparisons themselves (norm threshold, sign test) return
plain booleans, append nothing to the Trace, and so contribute no
gradient edge. -/
theorem C5_realized_path_grad (av sd : List ℚ) (fuel : Nat)
    (hs : sd.length = av.length)
    (hx : exitsLoop fuel (scaleL 2 av) = true) :
    runCF av fuel sd = some (scaleL
      ((if 0 < (bEnd fuel (scaleL 2 av)).sum then 1 else 100)
        * 2 ^ (doubleSteps fuel (scaleL 2 av) + 1)) sd) := by
  have hstart : opSMul (enterRecord (attach_grad (newTensor AD.empty av).1
      (newTensor AD.empty av).2)).1 2 (newTensor AD.empty av).2
      = (chainAD av [2] true, 1) := rfl
  have hwhile := whileDouble_chain fuel av [2]
  have htop2 : (chainVals av ([2] : List ℚ)).getD ([2] : List ℚ).length [] = scaleL 2 av := rfl
  rw [htop2] at hwhile
  rw [show ([2] : List ℚ).length = 1 from rfl] at hwhile
  rw [List.singleton_append, Nat.add_comm 1 (doubleSteps fuel (scaleL 2 av))] at hwhile
  set k := doubleSteps fuel (scaleL 2 av) with hk
  set CS : List ℚ := 2 :: List.replicate k 2 with hCS
  have hCSlen : CS.length = k + 1 := by simp [hCS]
  have hCSprod : CS.prod = (2:ℚ) ^ (k + 1) := by
    simp only [hCS, List.prod_cons, List.prod_replicate, pow_succ]
    ring
  have htopCS : (chainVals av CS).getD (k + 1) [] = scaleL ((2:ℚ) ^ (k + 1)) av := by
    have h1 := chainVals_getD_top CS av []
    rw [hCSlen] at h1
    rw [h1, hCSprod]
  have hbEnd : bEnd fuel (scaleL 2 av) = scaleL ((2:ℚ) ^ (k + 1)) av := by
    rw [bEnd_eq, ← hk, scaleL_scaleL]
    congr 1
    rw [pow_succ]
  have hsb : sumPosB (chainAD av CS true) (k + 1)
      = decide (0 < (scaleL ((2:ℚ) ^ (k + 1)) av).sum) := by
    simp only [sumPosB, chainAD, htopCS]
  simp only [runCF]
  rw [hstart]
  dsimp only
  rw [hwhile]
  dsimp only
  rw [hbEnd, hsb]
  by_cases hpos : 0 < (scaleL ((2:ℚ) ^ (k + 1)) av).sum
  · rw [if_pos hpos, if_pos (decide_eq_true hpos)]
    obtain ⟨s', hok, hsl⟩ := chain_backward av sd 2 (List.replicate k 2) false hs
    rw [show ((2 : ℚ) :: List.replicate k 2).length = k + 1 from by simp] at hok
    rw [show exitRecord (enterRecord (attach_grad (newTensor AD.empty av).1
        (newTensor AD.empty av).2)).2 (chainAD av CS true) = chainAD av CS false from rfl]
    rw [hCS, hok]
    dsimp only
    rw [hsl]
    rw [show ((2 : ℚ) :: List.replicate k 2).prod = 1 * 2 ^ (k + 1) from by
      rw [← hCS, hCSprod]; ring]
  · rw [if_neg hpos, if_neg (by simp [hpos])]
    have hsm := opSMul_chain av CS 100
    rw [hCSlen] at hsm
    rw [hsm]
    dsimp only
    obtain ⟨s', hok, hsl⟩ := chain_backward av sd 2 (List.replicate k 2 ++ [100]) false hs
    rw [show ((2 : ℚ) :: (List.replicate k 2 ++ [100])).length = k + 1 + 1 from by simp] at hok
    rw [show exitRecord (enterRecord (attach_grad (newTensor AD.empty av).1
        (newTensor AD.empty av).2)).2 (chainAD av (CS ++ [100]) true)
        = chainAD av (CS ++ [100]) false from rfl]
    rw [show CS ++ [100] = (2 : ℚ) :: (List.replicate k 2 ++ [100]) from by
      rw [hCS, List.cons_append]]
    rw [hok]
    dsimp only
    rw [hsl]
    rw [show ((2 : ℚ) :: (List.replicate k 2 ++ [100])).prod = 100 * 2 ^ (k + 1) from by
      simp [List.prod_cons, List.prod_append, List.prod_replicate, pow_succ]
      ring]

/-- Witness for C5: starting from a = [-3], b doubles 8 times before its
norm passes 1000, the sum is negative so c = 100 * b, and backward with
seed [1] leaves 100 * 2^9 = 51200 in a's slot. -/
theorem C5_realized_path_grad_witness :
    ([1] : List ℚ).length = ([-3] : List ℚ).length ∧
    exitsLoop 8 (scaleL 2 [-3]) = true ∧
    runCF [-3] 8 [1] = some [51200] := by
  have hx : exitsLoop 8 (scaleL 2 ([-3] : List ℚ)) = true := by
    norm_num [exitsLoop, normSqL, scaleL]
  refine ⟨rfl, hx, ?_⟩
  rw [C5_realized_path_grad [-3] [1] 8 rfl hx]
  norm_num [bEnd, doubleSteps, normSqL, scaleL]

/-- Well-formedness of an engine state: every Trace record references
arena ids strictly below the arena's length, and no Gradient Slot is
attached beyond the arena. -/
def WF (s : AD) : Prop :=
  (∀ r ∈ s.trace, r.out < s.vals.length ∧ ∀ i ∈ r.inputs, i < s.vals.length) ∧
  (∀ i, s.vals.length ≤ i → s.slots i = none)

/-- Pointwise agreement of two backward accumulators below a bound. -/
def Agree (N : Nat) (a b : (Nat → List ℚ) × (Nat → Bool)) : Prop :=
  ∀ i, i < N → a.1 i = b.1 i ∧ a.2 i = b.2 i

/-- Propagating the same gradients, at ids below the bound, preserves
agreement. -/
theorem propagate_agree (N : Nat) :
    ∀ ps : List (Nat × List ℚ), (∀ p ∈ ps, p.1 < N) →
      ∀ a b, Agree N a b →
        Agree N (ps.foldl propagate a) (ps.foldl propagate b) := by
  intro ps
  induction ps with
  | nil => intro _ a b hab; exact hab
  | cons p ps ih =>
      intro hps a b hab
      simp only [List.foldl_cons]
      refine ih (fun q hq => hps q (List.mem_cons_of_mem p hq)) _ _ ?_
      intro i hi
      simp only [propagate, upd]
      by_cases he : i = p.1
      · subst he
        rw [(hab p.1 hi).1, (hab p.1 hi).2]
        exact ⟨rfl, rfl⟩
      · rw [if_neg he, if_neg he, if_neg he, if_neg he]
        exact hab i hi

/-- The local backward rules read the arena only at the record's input
ids, so arenas agreeing below the bound give the same gradients. -/
theorem backRule_agree (N : Nat) (valsA valsB : List (List ℚ))
    (hv : ∀ i, i < N → valsA.getD i [] = valsB.getD i [])
    (k : OpKind) (ins : List Nat) (hins : ∀ i ∈ ins, i < N) (g : List ℚ) :
    backRule valsA k ins g = backRule valsB k ins g := by
  rcases k with _ | _ | c | _ <;>
    rcases ins with _ | ⟨x, _ | ⟨y, _ | ⟨z, t⟩⟩⟩ <;>
    try rfl
  · simp only [backRule]
    rw [hv x (hins x (by simp)), hv y (hins y (by simp))]
  · simp only [backRule]
    rw [hv x (hins x (by simp))]

/-- Processing one record referencing only ids below the bound preserves
agreement. -/
theorem step_agree (N : Nat) (valsA valsB : List (List ℚ))
    (hv : ∀ i, i < N → valsA.getD i [] = valsB.getD i [])
    (r : OpRec) (hr : r.out < N ∧ ∀ i ∈ r.inputs, i < N) :
    ∀ a b, Agree N a b → Agree N (step valsA a r) (step valsB b r) := by
  intro a b hab
  have hout := hab r.out hr.1
  simp only [step]
  cases hgate : b.2 r.out with
  | false =>
      rw [hout.2, hgate]
      simp only [Bool.false_eq_true, if_false]
      exact hab
  | true =>
      rw [hout.2, hgate]
      simp only [if_true]
      rw [hout.1, backRule_agree N valsA valsB hv r.kind r.inputs hr.2 (b.1 r.out)]
      refine propagate_agree N _ ?_ a b hab
      intro p hp
      exact hr.2 p.1 (List.of_mem_zip hp).1

/-- Folding the same records, all referencing ids below the bound, over
arenas agreeing below the bound preserves agreement. -/
theorem foldl_step_agree (N : Nat) (valsA valsB : List (List ℚ))
    (hv : ∀ i, i < N → valsA.getD i [] = valsB.getD i []) :
    ∀ recs : List OpRec,
      (∀ r ∈ recs, r.out < N ∧ ∀ i ∈ r.inputs, i < N) →
      ∀ a b, Agree N a b →
        Agree N (recs.foldl (step valsA) a) (recs.foldl (step valsB) b) := by
  intro recs
  induction recs with
  | nil => intro _ a b hab; exact hab
  | cons r recs ih =>
      intro hrecs a b hab
      simp only [List.foldl_cons]
      exact ih (fun q hq => hrecs q (List.mem_cons_of_mem r hq)) _ _
        (step_agree N valsA valsB hv r (hrecs r (List.mem_cons_self r recs)) a b hab)

/-- C4: when a result tensor is not a scalar, backward() with no seed is
literally backward with a seed of ones shaped like the result; and for
every well-formed recording state and traced result, the gradients left
in every slot by it equal those left by reducing the result with sum to a
scalar (under recording) and calling backward on that scalar. -/
theorem C4_default_seed_is_sum (s : AD) (r : Nat) (hwf : WF s)
    (hrec : s.recording = true) (hpb : producedBy s.trace r = true) :
    backward s r none
      = backward s r (some (List.replicate ((s.vals.getD r []).length) 1)) ∧
    ∃ sA sB, backward s r none = Except.ok sA ∧
      backward (opSum s r).1 (opSum s r).2 none = Except.ok sB ∧
      ∀ i, sA.slots i = sB.slots i := by
  constructor
  · rfl
  have hrlt : r < s.vals.length := by
    rcases List.any_eq_true.mp hpb with ⟨rec, hmem, hbeq⟩
    have heq : rec.out = r := by simpa using hbeq
    exact heq ▸ (hwf.1 rec hmem).1
  have hop1 : (opSum s r).1 = ⟨s.vals ++ [[(s.vals.getD r []).sum]], s.slots,
      s.trace ++ [⟨OpKind.sumAll, [r], s.vals.length⟩], s.recording⟩ := by
    simp [opSum, recordOp, hrec]
  have hop2 : (opSum s r).2 = s.vals.length := rfl
  have hpb2 : producedBy (s.trace ++ [⟨OpKind.sumAll, [r], s.vals.length⟩])
      s.vals.length = true := by
    simp [producedBy]
  have hn1 : ((s.vals ++ [[(s.vals.getD r []).sum]]).getD s.vals.length []).length = 1 := by
    rw [getD_append_self]
    rfl
  have hvr : (s.vals ++ [[(s.vals.getD r []).sum]]).getD r [] = s.vals.getD r [] :=
    getD_append_lt _ _ _ r hrlt
  have hv : ∀ i, i < s.vals.length →
      s.vals.getD i [] = (s.vals ++ [[(s.vals.getD r []).sum]]).getD i [] :=
    fun i hi => (getD_append_lt _ _ _ i hi).symm
  have hrev : (s.trace ++ [⟨OpKind.sumAll, [r], s.vals.length⟩] : List OpRec).reverse
      = ⟨OpKind.sumAll, [r], s.vals.length⟩ :: s.trace.reverse := by
    rw [List.reverse_append, List.reverse_singleton, List.singleton_append]
  rw [hop1, hop2]
  simp only [backward, Option.getD_none]
  rw [if_pos hpb, if_pos hpb2, if_pos (List.length_replicate _ _),
    if_pos (List.length_replicate _ _), hrev, List.foldl_cons]
  refine ⟨_, _, rfl, rfl, ?_⟩
  have hinit : Agree s.vals.length
      (upd (fun j => List.replicate ((s.vals.getD j []).length) 0) r
         (List.replicate ((s.vals.getD r []).length) 1),
       upd (fun _ => false) r true)
      (step (s.vals ++ [[(s.vals.getD r []).sum]])
        (upd (fun j => List.replicate
            (((s.vals ++ [[(s.vals.getD r []).sum]]).getD j []).length) 0)
           s.vals.length
           (List.replicate
             (((s.vals ++ [[(s.vals.getD r []).sum]]).getD s.vals.length []).length) 1),
         upd (fun _ => false) s.vals.length true)
        ⟨OpKind.sumAll, [r], s.vals.length⟩) := by
    intro i hi
    simp only [step]
    rw [if_pos (by simp [upd] : (upd (fun _ => false) s.vals.length true) s.vals.length = true)]
    simp only [backRule, upd, if_pos rfl, List.zip_cons_cons, List.zip_nil_right,
      List.foldl_cons, List.foldl_nil, propagate]
    rw [hn1]
    simp only [hvr, List.replicate, List.headD]
    have hner : r ≠ s.vals.length := by omega
    have hnei : i ≠ s.vals.length := by omega
    by_cases hir : i = r
    · subst hir
      simp only [if_pos rfl, if_neg hner]
      rw [addL_zeros ((s.vals.getD i []).length) _ (List.length_replicate _ _)]
      exact ⟨by trivial, by trivial⟩
    · simp only [if_neg hir, if_neg hnei]
      rw [← hv i hi]
      exact ⟨by trivial, by trivial⟩
  have hbounds : ∀ q ∈ s.trace.reverse,
      q.out < s.vals.length ∧ ∀ j ∈ q.inputs, j < s.vals.length := by
    intro q hq
    exact hwf.1 q (List.mem_reverse.mp hq)
  have hAg := foldl_step_agree s.vals.length s.vals
    (s.vals ++ [[(s.vals.getD r []).sum]]) hv s.trace.reverse hbounds _ _ hinit
  intro i
  dsimp only
  by_cases hi : i < s.vals.length
  · rcases hsl : s.slots i with _ | old
    · simp only [hsl]
    · simp only [hsl]
      rw [(hAg i hi).1, (hAg i hi).2]
  · have hnone : s.slots i = none := hwf.2 i (by omega)
    simp only [hnone]

/-- A small concrete recording state for exercising C4: leaf [1,2] with an
attached zeroed slot and one recorded scaling producing tensor 1 = [2,4]. -/
def sExC4 : AD :=
  ⟨[[1, 2], [2, 4]], upd (fun _ => none) 0 (some [0, 0]),
   [⟨OpKind.smul 2, [0], 1⟩], true⟩

/-- Witness for C4 at the concrete state: backward on the traced tensor
with no seed equals backward with the ones seed, both run to success, and
summing first leaves identical slots. -/
theorem C4_default_seed_is_sum_witness :
    backward sExC4 1 none
      = backward sExC4 1 (some (List.replicate ((sExC4.vals.getD 1 []).length) 1)) ∧
    ∃ sA sB, backward sExC4 1 none = Except.ok sA ∧
      backward (opSum sExC4 1).1 (opSum sExC4 1).2 none = Except.ok sB ∧
      ∀ i, sA.slots i = sB.slots i :=
  C4_default_seed_is_sum sExC4 1
    ⟨by decide, fun i hi => by
      have h2 : 2 ≤ i := hi
      simp only [sExC4, upd, if_neg (show i ≠ 0 by omega)]⟩
    rfl rfl
